import Mathlib

/-!
Verification development for the graphix-ibmq MBQC pattern-to-circuit
compiler.  The definitions below are a shallow embedding of the Python
sources:

* `graphix_ibmq/compiler.py` (`IBMQPatternCompiler`): qubit allocation,
  classical feedforward, command dispatch, circuit finalisation;
* `graphix_ibmq/result_utils.py` (`format_result`): result decoding;
* `graphix_ibmq/clifford.py` (`CLIFFORD_CONJ`, `CLIFFORD_TO_QISKIT`):
  the Clifford tables;
* `graphix_ibmq/runner.py` (`IBMQBackend.to_qiskit`): the legacy variant
  of the measurement-command translation.

Python dicts are rendered as association lists with first-match lookup and
in-place update (mirroring CPython's insertion-order semantics), machine
floats holding multiples of pi are rendered as rationals (the angle fields
only ever meet equality tests and negation), and exceptions are rendered
with `Except`.
-/

/-- Measurement plane, from `graphix.fundamentals.Plane` as consumed by the
compiler (`XY`, `YZ`, `XZ`). -/
inductive Plane where
  | XY
  | YZ
  | XZ
deriving DecidableEq, Repr

/-- Pattern command, mirroring the six graphix command kinds dispatched in
`IBMQPatternCompiler._process_commands` (`N`, `E`, `M`, `X`, `Z`, `C`).
Angles are in units of pi, as in graphix.  The `C` payload is the Clifford
table index. -/
inductive Command where
  | N (node : Nat)
  | E (a b : Nat)
  | M (node : Nat) (plane : Plane) (angle : ℚ) (s_domain : List Nat) (t_domain : List Nat)
  | X (node : Nat) (domain : List Nat)
  | Z (node : Nat) (domain : List Nat)
  | C (node : Nat) (clifford : Nat)
deriving DecidableEq, Repr

/-- The slice of the graphix `Pattern` object read by the compiler:
`input_nodes`, `output_nodes`, `max_space()`, `n_node`, the
`results` dict of precomputed deterministic outcomes, and the command
sequence itself. -/
structure Pattern where
  input_nodes : List Nat
  output_nodes : List Nat
  max_space : Nat
  n_node : Nat
  results : List (Nat × Nat)
  cmds : List Command
deriving DecidableEq, Repr

/-- Circuit operation, the IR of what the compiler emits onto the Qiskit
`QuantumCircuit`.  `cond c body` is the `with circ.if_test(cr[c] == 1)`
wrapper; rotation angles are in units of pi. -/
inductive Op where
  | reset (q : Nat)
  | h (q : Nat)
  | x (q : Nat)
  | y (q : Nat)
  | z (q : Nat)
  | s (q : Nat)
  | sdg (q : Nat)
  | cz (q1 q2 : Nat)
  | p (theta : ℚ) (q : Nat)
  | rz (theta : ℚ) (q : Nat)
  | rx (theta : ℚ) (q : Nat)
  | ry (theta : ℚ) (q : Nat)
  | measure (q : Nat) (c : Nat)
  | cond (c : Nat) (body : Op)
  | save_statevector
deriving DecidableEq, Repr

/-- Exceptions that can escape the compiler: `RuntimeError` from an empty
pool, Python `KeyError` from a missing dict entry, `NotImplementedError`
from a non-XY measurement plane. -/
inductive CompileError where
  | resource_exhausted
  | key_error
  | unsupported_plane
deriving DecidableEq, Repr

/-- First-match lookup in an association list, as Python `d[k]` / `d.get(k)`. -/
def dict_get : List (Nat × Nat) → Nat → Option Nat
  | [], _ => none
  | (k, v) :: t, key => if k = key then some v else dict_get t key

/-- In-place update-or-append, as Python `d[k] = v`. -/
def dict_set : List (Nat × Nat) → Nat → Nat → List (Nat × Nat)
  | [], k, v => [(k, v)]
  | (k', v') :: t, k, v => if k' = k then (k, v) :: t else (k', v') :: dict_set t k v

/-- Mutable state of `IBMQPatternCompiler`: the free-qubit pool
(`_available_qubits`), the node-to-circuit-qubit map (`_qubit_map`), the
node-to-classical-register map (`_creg_map`), the next free register index
(`_next_creg_idx`), and the operations emitted so far.  The `live` field is
instrumentation for the pool-bound property: it records the physical
indices handed out by `_allocate_qubit` and not yet returned by
`_release_qubit`; it influences nothing else. -/
structure CompilerState where
  available : List Nat
  qubit_map : List (Nat × Nat)
  creg_map : List (Nat × Nat)
  next_creg : Nat
  ops : List Op
  live : List Nat
deriving DecidableEq, Repr

/-- Embedding of `IBMQPatternCompiler._allocate_qubit`: pop the head of the
free pool (raising `RuntimeError` when it is empty), emit a reset on that
index and record the node-to-index mapping. -/
def allocate_qubit (st : CompilerState) (node : Nat) : Except CompileError (Nat × CompilerState) :=
  match st.available with
  | [] => .error .resource_exhausted
  | idx :: rest =>
      .ok (idx, { st with
        available := rest
        qubit_map := dict_set st.qubit_map node idx
        ops := st.ops ++ [.reset idx]
        live := idx :: st.live })

/-- Embedding of `IBMQPatternCompiler._release_qubit`: append the index back
onto the free pool.  Note the code does not touch `_qubit_map`. -/
def release_qubit (st : CompilerState) (idx : Nat) : CompilerState :=
  { st with available := st.available ++ [idx], live := st.live.erase idx }

/-- Correction kind, the `op` string argument of
`_apply_classical_feedforward` (always `"X"` or `"Z"` at call sites). -/
inductive CorrKind where
  | X
  | Z
deriving DecidableEq, Repr

/-- Correction gate on the target qubit selected by `gate_map` in
`_apply_classical_feedforward`. -/
def corr_gate : CorrKind → Nat → Op
  | .X, q => .x q
  | .Z, q => .z q

/-- Embedding of `IBMQPatternCompiler._apply_classical_feedforward`: for
each domain node in order, emit the correction conditioned on the node's
classical register when one is recorded, otherwise emit it unconditionally
exactly when `pattern.results.get(node) == 1`, otherwise emit nothing. -/
def apply_classical_feedforward (p : Pattern) (st : CompilerState) (kind : CorrKind)
    (target : Nat) : List Nat → CompilerState
  | [] => st
  | d :: rest =>
      let st' :=
        match dict_get st.creg_map d with
        | some r => { st with ops := st.ops ++ [.cond r (corr_gate kind target)] }
        | none =>
            if dict_get p.results d = some 1 then
              { st with ops := st.ops ++ [corr_gate kind target] }
            else st
      apply_classical_feedforward p st' kind target rest

/-- Embedding of `IBMQPatternCompiler._apply_n`: allocate (with reset) and
put the fresh qubit in the plus state. -/
def apply_n (st : CompilerState) (node : Nat) : Except CompileError CompilerState :=
  match allocate_qubit st node with
  | .error e => .error e
  | .ok (idx, st') => .ok { st' with ops := st'.ops ++ [.h idx] }

/-- Embedding of `IBMQPatternCompiler._apply_e`: CZ between the two live
physical qubits (Python `KeyError` when either node is unmapped). -/
def apply_e (st : CompilerState) (a b : Nat) : Except CompileError CompilerState :=
  match dict_get st.qubit_map a, dict_get st.qubit_map b with
  | some q1, some q2 => .ok { st with ops := st.ops ++ [.cz q1 q2] }
  | _, _ => .error .key_error

/-- Embedding of `IBMQPatternCompiler._apply_m`: reject non-XY planes, then
X-feedforward from `s_domain`, Z-feedforward from `t_domain`, a phase gate
by `-angle*pi` only when the angle is nonzero, a Hadamard, a measurement
into the next free classical register, record that register for the node,
and release the physical qubit. -/
def apply_m (p : Pattern) (st : CompilerState) (node : Nat) (plane : Plane) (angle : ℚ)
    (s_domain t_domain : List Nat) : Except CompileError CompilerState :=
  if plane ≠ Plane.XY then .error .unsupported_plane
  else
    match dict_get st.qubit_map node with
    | none => .error .key_error
    | some idx =>
        let st1 := apply_classical_feedforward p st .X idx s_domain
        let st2 := apply_classical_feedforward p st1 .Z idx t_domain
        let st3 := if angle ≠ 0 then { st2 with ops := st2.ops ++ [.p (-angle) idx] } else st2
        let st4 := { st3 with
          ops := st3.ops ++ [.h idx, .measure idx st3.next_creg]
          creg_map := dict_set st3.creg_map node st3.next_creg
          next_creg := st3.next_creg + 1 }
        .ok (release_qubit st4 idx)

/-- Embedding of `IBMQPatternCompiler._apply_x`. -/
def apply_x (p : Pattern) (st : CompilerState) (node : Nat) (domain : List Nat) :
    Except CompileError CompilerState :=
  match dict_get st.qubit_map node with
  | none => .error .key_error
  | some idx => .ok (apply_classical_feedforward p st .X idx domain)

/-- Embedding of `IBMQPatternCompiler._apply_z`. -/
def apply_z (p : Pattern) (st : CompilerState) (node : Nat) (domain : List Nat) :
    Except CompileError CompilerState :=
  match dict_get st.qubit_map node with
  | none => .error .key_error
  | some idx => .ok (apply_classical_feedforward p st .Z idx domain)

/-- Elementary single-qubit gate kind, mirroring `QiskitUGate` in
`runner.py` and the gate-name strings of `CLIFFORD_TO_QISKIT` in
`clifford.py`. -/
inductive UGate where
  | id
  | x
  | y
  | z
  | s
  | sdg
  | h
deriving DecidableEq, BEq, Repr

/-- Emission of one elementary gate, as `QiskitUGate.perform` (the identity
performs nothing). -/
def ugate_ops : UGate → Nat → List Op
  | .id, _ => []
  | .x, q => [.x q]
  | .y, q => [.y q]
  | .z, q => [.z q]
  | .s, q => [.s q]
  | .sdg, q => [.sdg q]
  | .h, q => [.h q]

/-- The 24-entry `CLIFFORD_TO_QISKIT` table of `clifford.py` (identical to
the table in `runner.py`). -/
def cliffordTable : List (List UGate) :=
  [[.id],
   [.x],
   [.y],
   [.z],
   [.s],
   [.sdg],
   [.h],
   [.sdg, .h, .sdg],
   [.h, .x],
   [.sdg, .y],
   [.sdg, .x],
   [.h, .y],
   [.h, .z],
   [.sdg, .h, .sdg, .y],
   [.sdg, .h, .s],
   [.sdg, .h, .sdg, .x],
   [.sdg, .h],
   [.sdg, .h, .y],
   [.sdg, .h, .z],
   [.sdg, .h, .x],
   [.h, .s],
   [.h, .sdg],
   [.h, .x, .sdg],
   [.h, .x, .s]]

/-- The 24-entry `CLIFFORD_CONJ` table of `clifford.py`. -/
def cliffordConjList : List Nat :=
  [0, 1, 2, 3, 5, 4, 6, 15, 12, 9, 10, 11, 8, 13, 14, 7, 20, 22, 23, 21, 16, 19, 17, 18]

/-- Gate sequence for a Clifford index. -/
def cliffordSeq (i : Nat) : List UGate := cliffordTable.getD i []

/-- Conjugate Clifford index. -/
def cliffordConj (i : Nat) : Nat := cliffordConjList.getD i 0

/-- Concatenation-map helper used to describe emitted gate runs. -/
def joinMap (f : α → List β) : List α → List β
  | [] => []
  | a :: t => f a ++ joinMap f t

/-- Embedding of the `C`-command handler: look up the node's physical qubit
and emit the table's gate sequence for the Clifford index in order
(`runner.py` applies `CLIFFORD_TO_QISKIT[cid.value]` gate by gate;
`compiler.py` reaches the same gate-name list through graphix's
`clifford.qasm3`). -/
def apply_c (st : CompilerState) (node : Nat) (clifford : Nat) :
    Except CompileError CompilerState :=
  match dict_get st.qubit_map node with
  | none => .error .key_error
  | some idx => .ok { st with ops := st.ops ++ joinMap (fun g => ugate_ops g idx) (cliffordSeq clifford) }

/-- Embedding of the dispatch in `IBMQPatternCompiler._process_commands`. -/
def process_command (p : Pattern) (st : CompilerState) : Command → Except CompileError CompilerState
  | .N node => apply_n st node
  | .E a b => apply_e st a b
  | .M node plane angle s_domain t_domain => apply_m p st node plane angle s_domain t_domain
  | .X node domain => apply_x p st node domain
  | .Z node domain => apply_z p st node domain
  | .C node clifford => apply_c st node clifford

/-- Left-to-right single pass over the command stream, aborting on the
first exception. -/
def process_commands (p : Pattern) : List Command → CompilerState → Except CompileError CompilerState
  | [], st => .ok st
  | c :: cs, st =>
      match process_command p st c with
      | .error e => .error e
      | .ok st' => process_commands p cs st'

/-- Input preparation loop of `IBMQPatternCompiler.__init__`: allocate each
input node in order (reset) and apply a Hadamard. -/
def alloc_inputs : List Nat → CompilerState → Except CompileError CompilerState
  | [], st => .ok st
  | n :: ns, st =>
      match allocate_qubit st n with
      | .error e => .error e
      | .ok (idx, st') => alloc_inputs ns { st' with ops := st'.ops ++ [.h idx] }

/-- State built by `IBMQPatternCompiler.__init__`: registers of size
`max_space` / `n_node`, the full free pool, empty maps, then the input
preparation loop. -/
def init_state (p : Pattern) : Except CompileError CompilerState :=
  alloc_inputs p.input_nodes
    { available := List.range p.max_space
      qubit_map := []
      creg_map := []
      next_creg := 0
      ops := []
      live := [] }

/-- The compiled circuit artifact: register sizes fixed at construction in
`IBMQPatternCompiler.__init__` (`QuantumRegister(max_space)`,
`ClassicalRegister(n_node)`) plus the ordered emitted operations. -/
structure CircuitProgram where
  qreg : Nat
  creg : Nat
  ops : List Op
deriving DecidableEq, Repr

/-- Embedding of `IBMQCompiledCircuit` (minus the back-reference to the
pattern): the circuit, the node-to-register map, and the output-qubit
list. -/
structure IBMQCompiledCircuit where
  circuit : CircuitProgram
  register_dict : List (Nat × Nat)
  circ_output : List Nat
deriving DecidableEq, Repr

/-- Helper mirroring the Python list comprehension
`[self._qubit_map[node] for node in output_nodes]` (raising `KeyError` on a
missing node). -/
def lookup_all (m : List (Nat × Nat)) : List Nat → Except CompileError (List Nat)
  | [] => .ok []
  | n :: ns =>
      match dict_get m n with
      | none => .error .key_error
      | some idx =>
          match lookup_all m ns with
          | .error e => .error e
          | .ok rest => .ok (idx :: rest)

/-- Output measurement loop of `IBMQPatternCompiler._finalize_circuit`. -/
def measure_outputs : List (Nat × Nat) → CompilerState → CompilerState
  | [], st => st
  | (node, idx) :: rest, st =>
      measure_outputs rest
        { st with
          ops := st.ops ++ [.measure idx st.next_creg]
          creg_map := dict_set st.creg_map node st.next_creg
          next_creg := st.next_creg + 1 }

/-- Embedding of `IBMQPatternCompiler._finalize_circuit` followed by the
packaging in `compile`: compute the output-qubit list (KeyError on a
missing node), optionally save the statevector, measure each output node
into the next register, and return the artifact. -/
def finalize_circuit (p : Pattern) (save_statevector : Bool) (st : CompilerState) :
    Except CompileError IBMQCompiledCircuit :=
  match lookup_all st.qubit_map p.output_nodes with
  | .error e => .error e
  | .ok output_qubits =>
      let st1 := if save_statevector then { st with ops := st.ops ++ [.save_statevector] } else st
      let st2 := measure_outputs (p.output_nodes.zip output_qubits) st1
      .ok { circuit := { qreg := p.max_space, creg := p.n_node, ops := st2.ops }
            register_dict := st2.creg_map
            circ_output := if save_statevector then output_qubits else [] }

/-- Embedding of `IBMQPatternCompiler(pattern).compile(save_statevector)`:
construction, command processing, finalisation. -/
def compile (p : Pattern) (save_statevector : Bool) : Except CompileError IBMQCompiledCircuit :=
  match init_state p with
  | .error e => .error e
  | .ok st =>
      match process_commands p p.cmds st with
      | .error e => .error e
      | .ok st' => finalize_circuit p save_statevector st'

/-- A raw or decoded histogram: a Python dict from bitstrings to counts,
rendered as an insertion-ordered association list with distinct keys. -/
def Histogram : Type := List (List Char × Nat)

/-- Add `c` to the count stored under key `k`, inserting the key at the end
when absent: Python `d[k] = d.get(k, 0) + c`. -/
def add_count : List (List Char × Nat) → List Char → Nat → List (List Char × Nat)
  | [], k, c => [(k, c)]
  | (k', c') :: t, k, c =>
      if k' = k then (k', c' + c) :: t else (k', c') :: add_count t k c

/-- Count stored under key `k` (0 when absent). -/
def countD (hist : List (List Char × Nat)) (k : List Char) : Nat :=
  match hist with
  | [] => 0
  | (k', c) :: t => if k' = k then c else countD t k

/-- Masked key computed inside the decoder loop:
`"".join(bitstring[n_node - 1 - idx] for idx in output_keys)`. -/
def masked_key (n_node : Nat) (output_keys : List Nat) (bitstring : List Char) : List Char :=
  output_keys.map (fun idx => bitstring.getD (n_node - 1 - idx) '0')

/-- Register indices of the output nodes,
`[register_dict[node] for node in pattern.output_nodes]` (Python `KeyError`
when a node is missing, rendered as `none`). -/
def output_keys_of (register_dict : List (Nat × Nat)) : List Nat → Option (List Nat)
  | [] => some []
  | n :: ns =>
      match dict_get register_dict n with
      | none => none
      | some r =>
          match output_keys_of register_dict ns with
          | none => none
          | some rest => some (r :: rest)

/-- Embedding of `result_utils.format_result`: compute the output register
indices, then fold the raw histogram into a fresh dict keyed by the masked
bitstrings, summing counts of colliding keys. -/
def format_result (result : List (List Char × Nat)) (p : Pattern)
    (register_dict : List (Nat × Nat)) : Option (List (List Char × Nat)) :=
  match output_keys_of register_dict p.output_nodes with
  | none => none
  | some output_keys =>
      some (result.foldl (fun acc kv => add_count acc (masked_key p.n_node output_keys kv.1) kv.2) [])

/-- Embedding of `signal_process` in `IBMQBackend.to_qiskit` (`runner.py`):
like `apply_classical_feedforward`, except that a domain node absent from
both the register map and `pattern.results` raises a Python `KeyError`
(the code indexes `self.pattern.results[s]` directly). -/
def runner_signal_process (p : Pattern) (st : CompilerState) (kind : CorrKind)
    (target : Nat) : List Nat → Except CompileError CompilerState
  | [] => .ok st
  | d :: rest =>
      match dict_get st.creg_map d with
      | some r =>
          runner_signal_process p { st with ops := st.ops ++ [.cond r (corr_gate kind target)] }
            kind target rest
      | none =>
          match dict_get p.results d with
          | none => .error .key_error
          | some v =>
              if v = 1 then
                runner_signal_process p { st with ops := st.ops ++ [corr_gate kind target] }
                  kind target rest
              else runner_signal_process p st kind target rest

/-- Embedding of the `M`-command branch of `IBMQBackend.to_qiskit`
(`runner.py` lines 189-211): X then Z signal processing, then a
plane-dependent rotation — `rz(-angle*pi)` and `h` for XY, `rx(angle*pi)`
for YZ, `ry(angle*pi)` for XZ — then measurement into the next register
and release of the circuit qubit. -/
def runner_apply_m (p : Pattern) (st : CompilerState) (node : Nat) (plane : Plane) (angle : ℚ)
    (s_domain t_domain : List Nat) : Except CompileError CompilerState :=
  match dict_get st.qubit_map node with
  | none => .error .key_error
  | some idx =>
      match runner_signal_process p st .X idx s_domain with
      | .error e => .error e
      | .ok st1 =>
          match runner_signal_process p st1 .Z idx t_domain with
          | .error e => .error e
          | .ok st2 =>
              let rot : List Op :=
                match plane with
                | .XY => [.rz (-angle) idx, .h idx]
                | .YZ => [.rx angle idx]
                | .XZ => [.ry angle idx]
              let st3 := { st2 with
                ops := st2.ops ++ rot ++ [.measure idx st2.next_creg]
                creg_map := dict_set st2.creg_map node st2.next_creg
                next_creg := st2.next_creg + 1 }
              .ok (release_qubit st3 idx)

/-- Gaussian integer, for exact single-qubit gate matrices. -/
structure GI where
  re : ℤ
  im : ℤ
deriving DecidableEq, Repr

/-- Zero Gaussian integer. -/
def GI.zero : GI := ⟨0, 0⟩

/-- One. -/
def GI.one : GI := ⟨1, 0⟩

/-- The imaginary unit. -/
def GI.I : GI := ⟨0, 1⟩

/-- Addition. -/
def GI.add (a b : GI) : GI := ⟨a.re + b.re, a.im + b.im⟩

/-- Negation. -/
def GI.neg (a : GI) : GI := ⟨-a.re, -a.im⟩

/-- Multiplication. -/
def GI.mul (a b : GI) : GI := ⟨a.re * b.re - a.im * b.im, a.re * b.im + a.im * b.re⟩

/-- Squared complex modulus. -/
def GI.normSq (a : GI) : ℤ := a.re * a.re + a.im * a.im

/-- A 2-by-2 complex matrix with Gaussian-integer entries, row major
(`a b / c d`).  A matrix with an implicit scale factor `(1/√2)^k` — the `k`
is tracked separately as the number of Hadamards — represents a
single-qubit operator exactly. -/
structure M2 where
  a : GI
  b : GI
  c : GI
  d : GI
deriving DecidableEq, Repr

/-- Matrix product. -/
def M2.mul (m n : M2) : M2 :=
  ⟨(m.a.mul n.a).add (m.b.mul n.c), (m.a.mul n.b).add (m.b.mul n.d),
   (m.c.mul n.a).add (m.d.mul n.c), (m.c.mul n.b).add (m.d.mul n.d)⟩

/-- Identity matrix. -/
def M2.id : M2 := ⟨GI.one, GI.zero, GI.zero, GI.one⟩

/-- Unscaled matrix of each elementary gate; the Hadamard entry is the
matrix times √2, every other entry is exact. -/
def ugate_mat : UGate → M2
  | .id => M2.id
  | .x => ⟨GI.zero, GI.one, GI.one, GI.zero⟩
  | .y => ⟨GI.zero, GI.I.neg, GI.I, GI.zero⟩
  | .z => ⟨GI.one, GI.zero, GI.zero, GI.one.neg⟩
  | .s => ⟨GI.one, GI.zero, GI.zero, GI.I⟩
  | .sdg => ⟨GI.one, GI.zero, GI.zero, GI.I.neg⟩
  | .h => ⟨GI.one, GI.one, GI.one, GI.one.neg⟩

/-- Operator of a gate sequence applied left to right: the head gate acts
first, so later gates multiply on the left.  The result is the true
operator times `√2^(number of Hadamards)`. -/
def seq_mat : List UGate → M2
  | [] => M2.id
  | g :: rest => (seq_mat rest).mul (ugate_mat g)

/-- Number of Hadamards in a sequence: the power of √2 by which `seq_mat`
overcounts the true operator. -/
def h_count (l : List UGate) : Nat := l.count UGate.h

/-- Pool-safety invariant carried through compilation: every pool index,
every instrumented live index and every mapped physical index is below
`max_space`. -/
def pool_inv (ms : Nat) (st : CompilerState) : Prop :=
  (∀ i ∈ st.available, i < ms) ∧ (∀ i ∈ st.live, i < ms) ∧ (∀ kv ∈ st.qubit_map, kv.2 < ms)

/-- State of the compiler after construction and the first `k` commands of
the pattern. -/
def reached_state (p : Pattern) (k : Nat) : Except CompileError CompilerState :=
  match init_state p with
  | .error e => .error e
  | .ok st => process_commands p (p.cmds.take k) st

/-- Operations emitted by the input-preparation loop of `__init__`: the
`i`-th input node is reset on physical qubit `i` and put in the plus
state. -/
def input_prep_ops (p : Pattern) : List Op :=
  joinMap (fun i => [Op.reset i, Op.h i]) (List.range p.input_nodes.length)

/-- Total count the decoder owes to one output key: the sum of the counts
of the raw entries whose masked key collides with it. -/
def mask_count (n : Nat) (keys : List Nat) : List (List Char × Nat) → List Char → Nat
  | [], _ => 0
  | kv :: t, s => (if masked_key n keys kv.1 = s then kv.2 else 0) + mask_count n keys t s

/-- Raw histogram of the decoder literal case. -/
def decoder_raw_example : List (List Char × Nat) := [(['0', '1'], 10), (['1', '0'], 5)]

/-- Pattern slice of the decoder literal case: register size 2, output
nodes `[0, 1]`. -/
def decoder_pattern_example : Pattern :=
  { input_nodes := [], output_nodes := [0, 1], max_space := 0, n_node := 2, results := [],
    cmds := [] }

/-- Register map of the decoder literal case. -/
def decoder_register_example : List (Nat × Nat) := [(0, 0), (1, 1)]

/-- A pattern with no deterministic results, as context for state-level
runs. -/
def plain_pattern : Pattern :=
  { input_nodes := [], output_nodes := [], max_space := 1, n_node := 3, results := [], cmds := [] }

/-- A compiler state mid-run with two measured nodes (registers 0 and 1)
and node 2 live on physical qubit 0. -/
def measure_state_example : CompilerState :=
  { available := [], qubit_map := [(2, 0)], creg_map := [(0, 0), (1, 1)], next_creg := 2,
    ops := [], live := [0] }

/-- A pattern whose measurement domain references node 5, which is never
measured and has no deterministic result. -/
def dangling_domain_pattern : Pattern :=
  { input_nodes := [], output_nodes := [], max_space := 1, n_node := 1, results := [],
    cmds := [.N 0, .M 0 .XY 0 [5] []] }

/-- A pattern with one input node that is also the single output node. -/
def one_node_pattern : Pattern :=
  { input_nodes := [0], output_nodes := [0], max_space := 1, n_node := 1, results := [], cmds := [] }

/-- A pattern with a YZ-plane measurement of node 0. -/
def yz_pattern : Pattern :=
  { input_nodes := [], output_nodes := [], max_space := 1, n_node := 1, results := [],
    cmds := [.N 0, .M 0 .YZ 1 [] []] }

/-- The state of the compiler for `yz_pattern` after construction and the
`N` command. -/
def yz_mid_state : CompilerState :=
  { available := [], qubit_map := [(0, 0)], creg_map := [], next_creg := 0,
    ops := [.reset 0, .h 0], live := [0] }

/-- A state with node 7 live on physical qubit 0. -/
def live_node_state : CompilerState :=
  { available := [], qubit_map := [(7, 0)], creg_map := [], next_creg := 0, ops := [], live := [0] }

/-- A state with node 0 live on physical qubit 0, for the runner variant. -/
def runner_state_example : CompilerState :=
  { available := [], qubit_map := [(0, 0)], creg_map := [], next_creg := 0, ops := [], live := [0] }

/-- A pattern with a single fresh qubit measured out, used by the
pool-bound witness. -/
def single_measure_pattern : Pattern :=
  { input_nodes := [], output_nodes := [], max_space := 1, n_node := 1, results := [],
    cmds := [.N 0, .M 0 .XY 0 [] []] }

/-- A pattern carrying deterministic results: node 5 is known to be 1 and
node 6 known to be 0 at compile time. -/
def det_results_pattern : Pattern :=
  { input_nodes := [], output_nodes := [], max_space := 1, n_node := 3,
    results := [(5, 1), (6, 0)], cmds := [] }

/-- Operations the feedforward loop emits for one domain node: the loop
body of `_apply_classical_feedforward` as a pure function of the register
map and the deterministic results. -/
def ff_op (p : Pattern) (creg : List (Nat × Nat)) (kind : CorrKind) (target : Nat)
    (d : Nat) : List Op :=
  match dict_get creg d with
  | some r => [.cond r (corr_gate kind target)]
  | none => if dict_get p.results d = some 1 then [corr_gate kind target] else []

theorem ff_eq (p : Pattern) (kind : CorrKind) (target : Nat) (domain : List Nat)
    (st : CompilerState) :
    apply_classical_feedforward p st kind target domain =
      { st with ops := st.ops ++ joinMap (ff_op p st.creg_map kind target) domain } := by
  induction domain generalizing st with
  | nil => cases st; simp [apply_classical_feedforward, joinMap]
  | cons d rest ih =>
      cases st with
      | mk avail qm cm nc ops lv =>
        simp only [apply_classical_feedforward, joinMap, ff_op]
        cases hg : dict_get cm d with
        | some r => rw [ih]; simp [List.append_assoc]
        | none =>
            by_cases hr : dict_get p.results d = some 1
            · simp only [hr, if_pos rfl]
              rw [ih]; simp [hr, List.append_assoc]
            · simp only [hr]
              rw [ih]; simp [hr]

theorem apply_m_eq (p : Pattern) (st : CompilerState) (node : Nat) (angle : ℚ)
    (s_domain t_domain : List Nat) (idx : Nat)
    (h : dict_get st.qubit_map node = some idx) :
    apply_m p st node Plane.XY angle s_domain t_domain =
      .ok { st with
        ops := st.ops ++ joinMap (ff_op p st.creg_map .X idx) s_domain
                ++ joinMap (ff_op p st.creg_map .Z idx) t_domain
                ++ (if angle ≠ 0 then [.p (-angle) idx] else [])
                ++ [.h idx, .measure idx st.next_creg]
        creg_map := dict_set st.creg_map node st.next_creg
        next_creg := st.next_creg + 1
        available := st.available ++ [idx]
        live := st.live.erase idx } := by
  cases st with
  | mk avail qm cm nc ops lv =>
    simp only [apply_m, h, release_qubit, ff_eq]
    by_cases ha : angle = 0
    · simp [ha, List.append_assoc]
    · simp [ha, List.append_assoc]

theorem process_commands_append (p : Pattern) (a b : List Command) (st : CompilerState) :
    process_commands p (a ++ b) st =
      match process_commands p a st with
      | .error e => .error e
      | .ok st' => process_commands p b st' := by
  induction a generalizing st with
  | nil => simp [process_commands]
  | cons c rest ih =>
      simp only [List.cons_append, process_commands]
      cases process_command p st c with
      | error e => rfl
      | ok st' => exact ih st'

theorem dict_get_mem (m : List (Nat × Nat)) (k v : Nat) (h : dict_get m k = some v) :
    (k, v) ∈ m := by
  induction m with
  | nil => simp [dict_get] at h
  | cons kv t ih =>
      obtain ⟨k', v'⟩ := kv
      simp only [dict_get] at h
      by_cases hk : k' = k
      · simp [hk] at h
        subst hk; subst h; exact List.mem_cons_self _ _
      · simp [hk] at h
        exact List.mem_cons_of_mem _ (ih h)

theorem dict_set_forall {P : Nat × Nat → Prop} (m : List (Nat × Nat)) (k v : Nat)
    (hm : ∀ kv ∈ m, P kv) (hv : P (k, v)) : ∀ kv ∈ dict_set m k v, P kv := by
  induction m with
  | nil => simpa [dict_set] using hv
  | cons kv' t ih =>
      obtain ⟨k', v'⟩ := kv'
      intro kv hkv
      simp only [dict_set] at hkv
      by_cases hk : k' = k
      · rw [if_pos hk] at hkv
        rcases List.mem_cons.mp hkv with h1 | h1
        · rw [h1]; exact hv
        · exact hm _ (List.mem_cons_of_mem _ h1)
      · rw [if_neg hk] at hkv
        rcases List.mem_cons.mp hkv with h1 | h1
        · rw [h1]; exact hm _ (List.mem_cons_self _ _)
        · exact ih (fun kv2 hkv2 => hm _ (List.mem_cons_of_mem _ hkv2)) _ h1

theorem allocate_qubit_inv (ms : Nat) (st : CompilerState) (node idx : Nat)
    (st' : CompilerState) (h : allocate_qubit st node = .ok (idx, st'))
    (hinv : pool_inv ms st) : pool_inv ms st' ∧ idx < ms := by
  obtain ⟨hav, hlive, hmap⟩ := hinv
  cases hA : st.available with
  | nil => simp [allocate_qubit, hA] at h
  | cons i rest =>
      simp only [allocate_qubit, hA, Except.ok.injEq, Prod.mk.injEq] at h
      obtain ⟨hidx, hst⟩ := h
      have hi0 : i < ms := hav i (by simp [hA])
      refine ⟨?_, hidx ▸ hi0⟩
      rw [← hst]
      refine ⟨?_, ?_, ?_⟩
      · intro j hj
        exact hav j (by rw [hA]; exact List.mem_cons_of_mem _ hj)
      · intro j hj
        rcases List.mem_cons.mp hj with h1 | h1
        · exact h1 ▸ hi0
        · exact hlive j h1
      · intro kv hkv
        exact dict_set_forall st.qubit_map node i (fun kv2 h2 => hmap kv2 h2) hi0 kv hkv

theorem release_qubit_inv (ms : Nat) (st : CompilerState) (idx : Nat)
    (hinv : pool_inv ms st) (hidx : idx < ms) : pool_inv ms (release_qubit st idx) := by
  obtain ⟨hav, hlive, hmap⟩ := hinv
  refine ⟨?_, ?_, hmap⟩
  · intro j hj
    simp only [release_qubit, List.mem_append, List.mem_singleton] at hj
    rcases hj with h | h
    · exact hav j h
    · subst h; exact hidx
  · intro j hj
    exact hlive j (List.mem_of_mem_erase hj)

theorem feedforward_inv (ms : Nat) (p : Pattern) (st : CompilerState) (kind : CorrKind)
    (target : Nat) (domain : List Nat) (hinv : pool_inv ms st) :
    pool_inv ms (apply_classical_feedforward p st kind target domain) := by
  rw [ff_eq]
  exact hinv

theorem apply_m_inv (ms : Nat) (p : Pattern) (st : CompilerState) (node : Nat) (plane : Plane)
    (angle : ℚ) (sdom tdom : List Nat) (st' : CompilerState)
    (h : apply_m p st node plane angle sdom tdom = .ok st')
    (hinv : pool_inv ms st) : pool_inv ms st' := by
  by_cases hp : plane = Plane.XY
  · subst hp
    cases hq : dict_get st.qubit_map node with
    | none => simp [apply_m, hq] at h
    | some idx =>
        rw [apply_m_eq p st node angle sdom tdom idx hq] at h
        injection h with h'
        rw [← h']
        have hidx : idx < ms := hinv.2.2 (node, idx) (dict_get_mem _ _ _ hq)
        refine ⟨?_, ?_, ?_⟩
        · intro j hj
          rcases List.mem_append.mp hj with h1 | h1
          · exact hinv.1 j h1
          · rw [List.mem_singleton.mp h1]; exact hidx
        · intro j hj
          exact hinv.2.1 j (List.mem_of_mem_erase hj)
        · intro kv hkv
          exact hinv.2.2 kv hkv
  · simp [apply_m, hp] at h

theorem process_command_inv (ms : Nat) (p : Pattern) (st : CompilerState) (c : Command)
    (st' : CompilerState) (h : process_command p st c = .ok st')
    (hinv : pool_inv ms st) : pool_inv ms st' := by
  cases c with
  | N node =>
      simp only [process_command, apply_n] at h
      cases hA : allocate_qubit st node with
      | error e => rw [hA] at h; simp at h
      | ok pr =>
          obtain ⟨idx, st1⟩ := pr
          rw [hA] at h
          injection h with h'
          rw [← h']
          exact (allocate_qubit_inv ms st node idx st1 hA hinv).1
  | E a b =>
      simp only [process_command, apply_e] at h
      cases h1 : dict_get st.qubit_map a with
      | none => rw [h1] at h; simp at h
      | some q1 =>
          cases h2 : dict_get st.qubit_map b with
          | none => rw [h1, h2] at h; simp at h
          | some q2 =>
              rw [h1, h2] at h
              injection h with h'
              rw [← h']
              exact hinv
  | M node plane angle sdom tdom =>
      exact apply_m_inv ms p st node plane angle sdom tdom st' h hinv
  | X node domain =>
      simp only [process_command, apply_x] at h
      cases h1 : dict_get st.qubit_map node with
      | none => rw [h1] at h; simp at h
      | some idx =>
          rw [h1] at h
          injection h with h'
          rw [← h']
          exact feedforward_inv ms p st .X idx domain hinv
  | Z node domain =>
      simp only [process_command, apply_z] at h
      cases h1 : dict_get st.qubit_map node with
      | none => rw [h1] at h; simp at h
      | some idx =>
          rw [h1] at h
          injection h with h'
          rw [← h']
          exact feedforward_inv ms p st .Z idx domain hinv
  | C node clifford =>
      simp only [process_command, apply_c] at h
      cases h1 : dict_get st.qubit_map node with
      | none => rw [h1] at h; simp at h
      | some idx =>
          rw [h1] at h
          injection h with h'
          rw [← h']
          exact hinv

theorem process_commands_inv (ms : Nat) (p : Pattern) (cs : List Command) (st : CompilerState)
    (st' : CompilerState) (h : process_commands p cs st = .ok st')
    (hinv : pool_inv ms st) : pool_inv ms st' := by
  induction cs generalizing st with
  | nil =>
      simp only [process_commands] at h
      injection h with h'
      rw [← h']; exact hinv
  | cons c rest ih =>
      simp only [process_commands] at h
      cases hc : process_command p st c with
      | error e => rw [hc] at h; simp at h
      | ok st1 =>
          rw [hc] at h
          exact ih st1 h (process_command_inv ms p st c st1 hc hinv)

theorem alloc_inputs_inv (ms : Nat) (ns : List Nat) (st st' : CompilerState)
    (h : alloc_inputs ns st = .ok st') (hinv : pool_inv ms st) : pool_inv ms st' := by
  induction ns generalizing st with
  | nil =>
      simp only [alloc_inputs] at h
      injection h with h'
      rw [← h']; exact hinv
  | cons n rest ih =>
      simp only [alloc_inputs] at h
      cases hA : allocate_qubit st n with
      | error e => rw [hA] at h; simp at h
      | ok pr =>
          obtain ⟨idx, st1⟩ := pr
          rw [hA] at h
          exact ih { st1 with ops := st1.ops ++ [.h idx] } h
            (allocate_qubit_inv ms st n idx st1 hA hinv).1

theorem reached_state_inv (p : Pattern) (k : Nat) (st' : CompilerState)
    (h : reached_state p k = .ok st') : pool_inv p.max_space st' := by
  unfold reached_state at h
  cases hi : init_state p with
  | error e => rw [hi] at h; simp at h
  | ok st0 =>
      rw [hi] at h
      have hinv0 : pool_inv p.max_space st0 := by
        refine alloc_inputs_inv p.max_space p.input_nodes _ st0 hi ⟨?_, ?_, ?_⟩
        · intro j hj; exact List.mem_range.mp hj
        · intro j hj; simp at hj
        · intro kv hkv; simp at hkv
      exact process_commands_inv p.max_space p (p.cmds.take k) st0 st' h hinv0

theorem process_command_ops_mono (p : Pattern) (st : CompilerState) (c : Command)
    (st' : CompilerState) (h : process_command p st c = .ok st') :
    ∃ t, st'.ops = st.ops ++ t := by
  cases c with
  | N node =>
      simp only [process_command, apply_n] at h
      cases hA : st.available with
      | nil => rw [allocate_qubit, hA] at h; simp at h
      | cons i rest =>
          rw [allocate_qubit, hA] at h
          injection h with h'
          exact ⟨[.reset i, .h i], by rw [← h']; simp⟩
  | E a b =>
      simp only [process_command, apply_e] at h
      cases h1 : dict_get st.qubit_map a with
      | none => rw [h1] at h; simp at h
      | some q1 =>
          cases h2 : dict_get st.qubit_map b with
          | none => rw [h1, h2] at h; simp at h
          | some q2 =>
              rw [h1, h2] at h
              injection h with h'
              exact ⟨[.cz q1 q2], by rw [← h']⟩
  | M node plane angle sdom tdom =>
      by_cases hp : plane = Plane.XY
      · subst hp
        cases hq : dict_get st.qubit_map node with
        | none => simp [process_command, apply_m, hq] at h
        | some idx =>
            rw [process_command, apply_m_eq p st node angle sdom tdom idx hq] at h
            injection h with h'
            refine ⟨joinMap (ff_op p st.creg_map .X idx) sdom
                ++ joinMap (ff_op p st.creg_map .Z idx) tdom
                ++ (if angle ≠ 0 then [.p (-angle) idx] else [])
                ++ [.h idx, .measure idx st.next_creg], ?_⟩
            rw [← h']
            simp [List.append_assoc]
      · simp [process_command, apply_m, hp] at h
  | X node domain =>
      simp only [process_command, apply_x] at h
      cases h1 : dict_get st.qubit_map node with
      | none => rw [h1] at h; simp at h
      | some idx =>
          rw [h1] at h
          injection h with h'
          exact ⟨joinMap (ff_op p st.creg_map .X idx) domain, by rw [← h', ff_eq]⟩
  | Z node domain =>
      simp only [process_command, apply_z] at h
      cases h1 : dict_get st.qubit_map node with
      | none => rw [h1] at h; simp at h
      | some idx =>
          rw [h1] at h
          injection h with h'
          exact ⟨joinMap (ff_op p st.creg_map .Z idx) domain, by rw [← h', ff_eq]⟩
  | C node clifford =>
      simp only [process_command, apply_c] at h
      cases h1 : dict_get st.qubit_map node with
      | none => rw [h1] at h; simp at h
      | some idx =>
          rw [h1] at h
          injection h with h'
          exact ⟨joinMap (fun g => ugate_ops g idx) (cliffordSeq clifford), by rw [← h']⟩

theorem process_commands_ops_mono (p : Pattern) (cs : List Command) (st : CompilerState)
    (st' : CompilerState) (h : process_commands p cs st = .ok st') :
    ∃ t, st'.ops = st.ops ++ t := by
  induction cs generalizing st with
  | nil =>
      simp only [process_commands] at h
      injection h with h'
      exact ⟨[], by rw [← h']; simp⟩
  | cons c rest ih =>
      simp only [process_commands] at h
      cases hc : process_command p st c with
      | error e => rw [hc] at h; simp at h
      | ok st1 =>
          rw [hc] at h
          obtain ⟨t1, ht1⟩ := process_command_ops_mono p st c st1 hc
          obtain ⟨t2, ht2⟩ := ih st1 h
          exact ⟨t1 ++ t2, by rw [ht2, ht1, List.append_assoc]⟩

theorem measure_outputs_ops_mono (l : List (Nat × Nat)) (st : CompilerState) :
    ∃ t, (measure_outputs l st).ops = st.ops ++ t := by
  induction l generalizing st with
  | nil => exact ⟨[], by simp [measure_outputs]⟩
  | cons kv rest ih =>
      obtain ⟨node, idx⟩ := kv
      simp only [measure_outputs]
      obtain ⟨t, ht⟩ := ih { st with
        ops := st.ops ++ [.measure idx st.next_creg]
        creg_map := dict_set st.creg_map node st.next_creg
        next_creg := st.next_creg + 1 }
      exact ⟨[.measure idx st.next_creg] ++ t, by rw [ht]; simp [List.append_assoc]⟩

theorem finalize_ops_mono (p : Pattern) (sv : Bool) (st : CompilerState)
    (res : IBMQCompiledCircuit) (h : finalize_circuit p sv st = .ok res) :
    ∃ t, res.circuit.ops = st.ops ++ t := by
  simp only [finalize_circuit] at h
  cases hl : lookup_all st.qubit_map p.output_nodes with
  | error e => rw [hl] at h; simp at h
  | ok outs =>
      rw [hl] at h
      injection h with h'
      cases sv with
      | false =>
          obtain ⟨t, ht⟩ := measure_outputs_ops_mono (p.output_nodes.zip outs) st
          refine ⟨t, ?_⟩
          rw [← h']
          simpa using ht
      | true =>
          obtain ⟨t, ht⟩ := measure_outputs_ops_mono (p.output_nodes.zip outs)
            { st with ops := st.ops ++ [.save_statevector] }
          refine ⟨[Op.save_statevector] ++ t, ?_⟩
          rw [← h']
          simp only [if_pos rfl] at ht ⊢
          simpa [List.append_assoc] using ht

theorem alloc_inputs_spec (ns : List Nat) (st st' : CompilerState)
    (h : alloc_inputs ns st = .ok st') :
    ns.length ≤ st.available.length ∧
    st'.ops = st.ops ++ joinMap (fun i => [Op.reset i, Op.h i]) (st.available.take ns.length) := by
  induction ns generalizing st with
  | nil =>
      simp only [alloc_inputs] at h
      injection h with h'
      exact ⟨Nat.zero_le _, by rw [← h']; simp [joinMap]⟩
  | cons n rest ih =>
      simp only [alloc_inputs] at h
      cases hA : st.available with
      | nil => rw [allocate_qubit, hA] at h; simp at h
      | cons i ras =>
          rw [allocate_qubit, hA] at h
          simp only at h
          obtain ⟨hle, hops⟩ := ih _ h
          simp only [List.length_cons, hA, List.take] at *
          constructor
          · exact Nat.succ_le_succ hle
          · rw [hops]
            simp [joinMap, List.append_assoc]

theorem joinMap_prep_length (l : List Nat) :
    (joinMap (fun i => [Op.reset i, Op.h i]) l).length = 2 * l.length := by
  induction l with
  | nil => simp [joinMap]
  | cons a t ih => simp [joinMap, ih]; ring

theorem init_state_ops (p : Pattern) (st0 : CompilerState) (h : init_state p = .ok st0) :
    st0.ops = input_prep_ops p := by
  obtain ⟨hle, hops⟩ := alloc_inputs_spec p.input_nodes _ st0 h
  simp only [List.length_range] at hle
  rw [hops]
  simp only [List.take_range, input_prep_ops, Nat.min_eq_left hle, List.nil_append]

theorem countD_add_count (hist : List (List Char × Nat)) (k : List Char) (c : Nat)
    (s : List Char) :
    countD (add_count hist k c) s = countD hist s + (if s = k then c else 0) := by
  induction hist with
  | nil =>
      simp only [add_count, countD]
      by_cases hs : k = s
      · rw [if_pos hs, if_pos hs.symm]
        exact (Nat.zero_add c).symm
      · rw [if_neg hs, if_neg (fun h => hs h.symm)]
  | cons kv t ih =>
      obtain ⟨k', c'⟩ := kv
      simp only [add_count]
      by_cases hk : k' = k
      · rw [if_pos hk]
        simp only [countD]
        by_cases hs : k' = s
        · rw [if_pos hs, if_pos hs, if_pos (hs.symm.trans hk)]
        · rw [if_neg hs, if_neg hs, if_neg (fun h => hs (hk.trans h.symm))]
          exact (Nat.add_zero _).symm
      · rw [if_neg hk]
        simp only [countD]
        by_cases hs : k' = s
        · rw [if_pos hs, if_pos hs, if_neg (fun h => hk (hs.trans h))]
          exact (Nat.add_zero _).symm
        · rw [if_neg hs, if_neg hs]
          exact ih

theorem countD_fold (m : List Char → List Char) (l : List (List Char × Nat))
    (acc : List (List Char × Nat)) (s : List Char) :
    countD (l.foldl (fun a kv => add_count a (m kv.1) kv.2) acc) s =
      countD acc s +
        ((l.filter (fun kv => decide (m kv.1 = s))).map (fun kv => kv.2)).sum := by
  induction l generalizing acc with
  | nil => simp
  | cons kv t ih =>
      simp only [List.foldl_cons, List.filter_cons]
      rw [ih]
      by_cases hm : m kv.1 = s
      · simp [hm, countD_add_count, Nat.add_assoc, Nat.add_comm, Nat.add_left_comm]
      · have : ¬s = m kv.1 := fun h => hm h.symm
        simp [hm, this, countD_add_count]

theorem mask_count_eq_filter_sum (n : Nat) (keys : List Nat) (l : List (List Char × Nat))
    (s : List Char) :
    mask_count n keys l s =
      ((l.filter (fun kv => decide (masked_key n keys kv.1 = s))).map (fun kv => kv.2)).sum := by
  induction l with
  | nil => simp [mask_count]
  | cons kv t ih =>
      simp only [mask_count, List.filter_cons]
      by_cases hm : masked_key n keys kv.1 = s
      · simp [hm, ih]
      · simp [hm, ih]

theorem output_keys_of_spec (rd : List (Nat × Nat)) (ns : List Nat) (keys : List Nat)
    (h : output_keys_of rd ns = some keys) :
    keys.length = ns.length ∧
    ∀ i, ∀ hi : i < keys.length, dict_get rd (ns.getD i 0) = some (keys.get ⟨i, hi⟩) := by
  induction ns generalizing keys with
  | nil =>
      simp only [output_keys_of] at h
      injection h with h'
      subst h'
      exact ⟨rfl, fun i hi => absurd hi (by simp)⟩
  | cons n rest ih =>
      simp only [output_keys_of] at h
      cases h1 : dict_get rd n with
      | none => rw [h1] at h; simp at h
      | some r =>
          rw [h1] at h
          cases h2 : output_keys_of rd rest with
          | none => rw [h2] at h; simp at h
          | some krest =>
              rw [h2] at h
              injection h with h'
              subst h'
              obtain ⟨hlen, hidx⟩ := ih krest h2
              refine ⟨by simp [hlen], ?_⟩
              intro i hi
              cases i with
              | zero => simpa using h1
              | succ j =>
                  simp only [List.getD_cons_succ, List.get]
                  exact hidx j (Nat.lt_of_succ_lt_succ hi)

/-- Claim C7: for every index `i` in the 24-entry Clifford table, applying
the gate sequence of entry `i` and then the sequence of entry `conj[i]`
yields a nonzero scalar matrix whose squared modulus equals the accumulated
`√2` scale, i.e. the identity up to a global phase of unit modulus, on any
single-qubit state; concretely the entry for S (index 4) has conjugate
S-dagger (index 5) and their composition is exactly the identity matrix. -/
theorem c7_clifford_involution :
    cliffordTable.length = 24 ∧ cliffordConjList.length = 24 ∧
    (∀ i : Fin 24,
      (seq_mat (cliffordSeq i.val ++ cliffordSeq (cliffordConj i.val))).b = GI.zero ∧
      (seq_mat (cliffordSeq i.val ++ cliffordSeq (cliffordConj i.val))).c = GI.zero ∧
      (seq_mat (cliffordSeq i.val ++ cliffordSeq (cliffordConj i.val))).a =
        (seq_mat (cliffordSeq i.val ++ cliffordSeq (cliffordConj i.val))).d ∧
      GI.normSq (seq_mat (cliffordSeq i.val ++ cliffordSeq (cliffordConj i.val))).a =
        2 ^ h_count (cliffordSeq i.val ++ cliffordSeq (cliffordConj i.val))) ∧
    cliffordConj 4 = 5 ∧
    seq_mat (cliffordSeq 4 ++ cliffordSeq 5) = M2.id := by
  decide

/-- Claim C3: every feedforward emission handles each domain node
independently and in order — a registered node contributes a
`ConditionalOp` on its register bit wrapping the single correction gate, an
unregistered node with deterministic result 1 contributes the bare gate,
and an unregistered node with deterministic result 0 contributes nothing
(see `ff_op`); the three closed conjuncts exhibit each case, the last one
being the spec's deterministic-correction scenario. -/
theorem c3_feedforward_cases (p : Pattern) (st : CompilerState) (kind : CorrKind)
    (target : Nat) (domain : List Nat) :
    apply_classical_feedforward p st kind target domain =
      { st with ops := st.ops ++ joinMap (ff_op p st.creg_map kind target) domain } ∧
    apply_classical_feedforward det_results_pattern measure_state_example .X 0 [0] =
      { measure_state_example with ops := [.cond 0 (.x 0)] } ∧
    apply_classical_feedforward det_results_pattern measure_state_example .X 0 [5] =
      { measure_state_example with ops := [.x 0] } ∧
    apply_classical_feedforward det_results_pattern measure_state_example .X 0 [6] =
      measure_state_example :=
  ⟨ff_eq p kind target domain st, by decide, by decide, by decide⟩

/-- Claim C4, counterexample: compiling a pattern whose measurement
`s_domain` references node 5 — never measured, not in
`deterministic_results` — succeeds and produces a circuit, instead of
raising the `ReferenceError` the claim asserts. -/
theorem c4_counterexample :
    (compile dangling_domain_pattern false).map (fun r => r.circuit) =
      .ok { qreg := 1, creg := 1, ops := [.reset 0, .h 0, .h 0, .measure 0 0] } := by
  rfl

/-- Claim C4 as amended: a domain entry with no register index that is also
absent from `deterministic_results` is silently skipped by
`_apply_classical_feedforward` — no operation is emitted and no error is
raised, so compilation proceeds. -/
theorem c4_amended_silent_skip (p : Pattern) (st : CompilerState) (kind : CorrKind)
    (target d : Nat) (h1 : dict_get st.creg_map d = none)
    (h2 : dict_get p.results d = none) :
    apply_classical_feedforward p st kind target [d] = st := by
  simp [apply_classical_feedforward, h1, h2]

/-- Witness for the amended C4 at node 5 of `plain_pattern`. -/
theorem c4_witness :
    apply_classical_feedforward plain_pattern measure_state_example .X 0 [5] =
      measure_state_example :=
  c4_amended_silent_skip plain_pattern measure_state_example .X 0 5 rfl rfl

/-- Claim C9, counterexample: measuring node 7 releases its physical qubit
(index 0 returns to the pool), yet the node-to-physical-index entry
`7 ↦ 0` is still present afterwards — `_release_qubit` never removes
map entries, contradicting the claim. -/
theorem c9_counterexample :
    (apply_m plain_pattern live_node_state 7 Plane.XY 0 [] []).map
      (fun s => (dict_get s.qubit_map 7, s.available)) = .ok (some 0, [0]) := by
  rfl

/-- Claim C9 as amended: releasing a node's physical index appends it to
the free pool and changes nothing else — in particular the
node-to-physical-index mapping is left intact (the released node keeps its
stale entry), as the measurement path also shows. -/
theorem c9_amended_release_keeps_mapping (st : CompilerState) (idx : Nat) (p : Pattern)
    (node : Nat) (angle : ℚ) (sdom tdom : List Nat) (qidx : Nat)
    (h : dict_get st.qubit_map node = some qidx) :
    (release_qubit st idx).available = st.available ++ [idx] ∧
    (release_qubit st idx).qubit_map = st.qubit_map ∧
    (release_qubit st idx).creg_map = st.creg_map ∧
    (release_qubit st idx).next_creg = st.next_creg ∧
    (release_qubit st idx).ops = st.ops ∧
    (apply_m p st node Plane.XY angle sdom tdom).map (fun s => s.qubit_map) =
      .ok st.qubit_map := by
  refine ⟨rfl, rfl, rfl, rfl, rfl, ?_⟩
  rw [apply_m_eq p st node angle sdom tdom qidx h]
  rfl

/-- Witness for the amended C9 at `live_node_state`. -/
theorem c9_witness :
    (release_qubit live_node_state 0).available = live_node_state.available ++ [0] ∧
    (release_qubit live_node_state 0).qubit_map = live_node_state.qubit_map ∧
    (release_qubit live_node_state 0).creg_map = live_node_state.creg_map ∧
    (release_qubit live_node_state 0).next_creg = live_node_state.next_creg ∧
    (release_qubit live_node_state 0).ops = live_node_state.ops ∧
    (apply_m plain_pattern live_node_state 7 Plane.XY 0 [] []).map (fun s => s.qubit_map) =
      .ok live_node_state.qubit_map :=
  c9_amended_release_keeps_mapping live_node_state 0 plain_pattern 7 0 [] [] 0 rfl

/-- Claim C2, counterexample: measuring node 2 (physical qubit 0, angle 1)
with `s_domain = [0]` and `t_domain = [1]` emits the Z-correction before
the phase rotation and the Hadamard, not after them as the claim orders
the operations. -/
theorem c2_counterexample :
    (apply_m plain_pattern measure_state_example 2 Plane.XY 1 [0] [1]).map (fun s => s.ops) =
      .ok [.cond 0 (.x 0), .cond 1 (.z 0), .p (-1) 0, .h 0, .measure 0 2] ∧
    ([.cond 0 (.x 0), .cond 1 (.z 0), .p (-1) 0, .h 0, .measure 0 2] : List Op) ≠
      [.cond 0 (.x 0), .p (-1) 0, .h 0, .cond 1 (.z 0), .measure 0 2] :=
  ⟨rfl, by decide⟩

/-- Claim C2 as amended: for a Measure command on an allocated node with
plane XY the operations are emitted in this order — X-corrections from
`s_domain`, then Z-corrections from `t_domain`, then the phase rotation by
`-angle*pi` (emitted only when the angle is nonzero) followed by the
Hadamard, then the measurement into the register index recorded for the
node, and finally the release of the physical qubit. -/
theorem c2_amended_measure_order (p : Pattern) (st : CompilerState) (node : Nat)
    (angle : ℚ) (sdom tdom : List Nat) (idx : Nat)
    (h : dict_get st.qubit_map node = some idx) :
    apply_m p st node Plane.XY angle sdom tdom =
      .ok { st with
        ops := st.ops ++ joinMap (ff_op p st.creg_map .X idx) sdom
                ++ joinMap (ff_op p st.creg_map .Z idx) tdom
                ++ (if angle ≠ 0 then [.p (-angle) idx] else [])
                ++ [.h idx, .measure idx st.next_creg]
        creg_map := dict_set st.creg_map node st.next_creg
        next_creg := st.next_creg + 1
        available := st.available ++ [idx]
        live := st.live.erase idx } :=
  apply_m_eq p st node angle sdom tdom idx h

/-- Witness for the amended C2 at `measure_state_example`. -/
theorem c2_witness :
    apply_m plain_pattern measure_state_example 2 Plane.XY 1 [0] [1] =
      .ok { measure_state_example with
        ops := measure_state_example.ops
                ++ joinMap (ff_op plain_pattern measure_state_example.creg_map .X 0) [0]
                ++ joinMap (ff_op plain_pattern measure_state_example.creg_map .Z 0) [1]
                ++ (if (1 : ℚ) ≠ 0 then [.p (-1) 0] else [])
                ++ [.h 0, .measure 0 measure_state_example.next_creg]
        creg_map := dict_set measure_state_example.creg_map 2 measure_state_example.next_creg
        next_creg := measure_state_example.next_creg + 1
        available := measure_state_example.available ++ [0]
        live := measure_state_example.live.erase 0 } :=
  c2_amended_measure_order plain_pattern measure_state_example 2 1 [0] [1] 0 rfl

/-- Claim C6, counterexample: the legacy `IBMQBackend.to_qiskit` path
compiles a YZ-plane measurement successfully, emitting an `rx` rotation
and the measurement instead of aborting with an error. -/
theorem c6_counterexample :
    runner_apply_m plain_pattern runner_state_example 0 Plane.YZ 1 [] [] =
      .ok { available := [0], qubit_map := [(0, 0)], creg_map := [(0, 0)], next_creg := 1,
            ops := [.rx 1 0, .measure 0 0], live := [] } := by
  rfl

/-- Claim C6 as amended: in the `IBMQPatternCompiler` path a non-XY
measurement plane aborts compilation immediately — `_apply_m` raises
before emitting anything, the error propagates, and `compile` returns no
circuit; the legacy runner path, by contrast, supports YZ and XZ planes. -/
theorem c6_amended_nonxy_abort (p : Pattern) (sv : Bool) (st0 st' : CompilerState)
    (pre post : List Command) (node : Nat) (plane : Plane) (angle : ℚ)
    (sdom tdom : List Nat)
    (hplane : plane ≠ Plane.XY)
    (hcmds : p.cmds = pre ++ Command.M node plane angle sdom tdom :: post)
    (hinit : init_state p = .ok st0)
    (hpre : process_commands p pre st0 = .ok st') :
    apply_m p st' node plane angle sdom tdom = .error .unsupported_plane ∧
    compile p sv = .error .unsupported_plane := by
  have hm : apply_m p st' node plane angle sdom tdom = .error .unsupported_plane := by
    simp [apply_m, hplane]
  refine ⟨hm, ?_⟩
  simp only [compile, hinit]
  rw [hcmds, process_commands_append, hpre]
  simp only [process_commands, process_command, hm]

/-- Witness for the amended C6 on `yz_pattern`. -/
theorem c6_witness :
    apply_m yz_pattern yz_mid_state 0 Plane.YZ 1 [] [] = .error .unsupported_plane ∧
    compile yz_pattern false = .error .unsupported_plane :=
  c6_amended_nonxy_abort yz_pattern false
    { available := [0], qubit_map := [], creg_map := [], next_creg := 0, ops := [], live := [] }
    yz_mid_state [.N 0] [] 0 .YZ 1 [] [] (by decide) rfl rfl rfl

/-- Claim C8, counterexample: `one_node_pattern` has `n_node = 1` and one
output node, so the claim predicts classical register size 2, but the
compiled circuit's classical register has size 1. -/
theorem c8_counterexample :
    (compile one_node_pattern false).map (fun r => r.circuit.creg) = .ok 1 ∧
    one_node_pattern.n_node + one_node_pattern.output_nodes.length = 2 ∧
    (1 : Nat) ≠ 2 :=
  ⟨rfl, rfl, by decide⟩

/-- Claim C8 as amended: every compiled circuit has quantum register size
`max_space` and classical register size `n_node` (which already counts the
output nodes, so no output count is added). -/
theorem c8_amended_register_sizes (p : Pattern) (sv : Bool) (res : IBMQCompiledCircuit)
    (h : compile p sv = .ok res) :
    res.circuit.qreg = p.max_space ∧ res.circuit.creg = p.n_node := by
  simp only [compile] at h
  split at h
  · simp at h
  · split at h
    · simp at h
    · simp only [finalize_circuit] at h
      split at h
      · simp at h
      · injection h with h'
        rw [← h']
        exact ⟨rfl, rfl⟩

/-- Witness for the amended C8 on `one_node_pattern`. -/
theorem c8_witness :
    ({ circuit := { qreg := 1, creg := 1, ops := [Op.reset 0, Op.h 0, Op.measure 0 0] },
       register_dict := [(0, 0)], circ_output := [] } : IBMQCompiledCircuit).circuit.qreg =
      one_node_pattern.max_space ∧
    ({ circuit := { qreg := 1, creg := 1, ops := [Op.reset 0, Op.h 0, Op.measure 0 0] },
       register_dict := [(0, 0)], circ_output := [] } : IBMQCompiledCircuit).circuit.creg =
      one_node_pattern.n_node :=
  c8_amended_register_sizes one_node_pattern false _ rfl

/-- Claim C5: in every state the dispatcher reaches (construction plus any
prefix of the command stream), the set of physical qubit indices that are
allocated and not yet released has size at most `max_space`, and an
allocation attempted on an empty pool fails with the resource-exhaustion
error rather than handing out an index. -/
theorem c5_pool_bound (p : Pattern) (k : Nat) (st' st'' : CompilerState) (node : Nat)
    (h : reached_state p k = .ok st') (h2 : st''.available = []) :
    st'.live.toFinset.card ≤ p.max_space ∧
    allocate_qubit st'' node = .error .resource_exhausted := by
  constructor
  · have hinv := reached_state_inv p k st' h
    have hsub : st'.live.toFinset ⊆ Finset.range p.max_space := by
      intro i hi
      exact Finset.mem_range.mpr (hinv.2.1 i (List.mem_toFinset.mp hi))
    calc st'.live.toFinset.card ≤ (Finset.range p.max_space).card :=
          Finset.card_le_card hsub
      _ = p.max_space := Finset.card_range _
  · simp [allocate_qubit, h2]

/-- Witness for C5 after the `N` command of `single_measure_pattern`. -/
theorem c5_witness :
    ({ available := [], qubit_map := [(0, 0)], creg_map := [], next_creg := 0,
       ops := [Op.reset 0, Op.h 0], live := [0] } : CompilerState).live.toFinset.card ≤
      single_measure_pattern.max_space ∧
    allocate_qubit
      { available := [], qubit_map := [(0, 0)], creg_map := [], next_creg := 0,
        ops := [Op.reset 0, Op.h 0], live := [0] } 3 = .error .resource_exhausted :=
  c5_pool_bound single_measure_pattern 1
    { available := [], qubit_map := [(0, 0)], creg_map := [], next_creg := 0,
      ops := [Op.reset 0, Op.h 0], live := [0] }
    { available := [], qubit_map := [(0, 0)], creg_map := [], next_creg := 0,
      ops := [Op.reset 0, Op.h 0], live := [0] } 3 rfl rfl

/-- Claim C10: every successfully compiled circuit begins with the input
preparation emitted at compiler construction — for each input node, in
input order, a reset of the freshly allocated physical qubit followed by a
Hadamard (the plus state), before any operation of any pattern command;
the input state is therefore fixed regardless of any intended input. -/
theorem c10_input_preparation (p : Pattern) (sv : Bool) (res : IBMQCompiledCircuit)
    (h : compile p sv = .ok res) :
    res.circuit.ops.take (2 * p.input_nodes.length) = input_prep_ops p := by
  simp only [compile] at h
  cases hi : init_state p with
  | error e => rw [hi] at h; simp at h
  | ok st0 =>
      rw [hi] at h
      simp only at h
      cases hp : process_commands p p.cmds st0 with
      | error e => rw [hp] at h; simp at h
      | ok st1 =>
          rw [hp] at h
          simp only at h
          obtain ⟨t2, ht2⟩ := finalize_ops_mono p sv st1 res h
          obtain ⟨t1, ht1⟩ := process_commands_ops_mono p p.cmds st0 st1 hp
          have h0 : st0.ops = input_prep_ops p := init_state_ops p st0 hi
          rw [ht2, ht1, h0, List.append_assoc]
          have hlen : (input_prep_ops p).length = 2 * p.input_nodes.length := by
            simpa [input_prep_ops] using joinMap_prep_length (List.range p.input_nodes.length)
          rw [← hlen]
          exact List.take_left _ _

/-- Witness for C10 on `one_node_pattern`. -/
theorem c10_witness :
    ({ circuit := { qreg := 1, creg := 1, ops := [Op.reset 0, Op.h 0, Op.measure 0 0] },
       register_dict := [(0, 0)], circ_output := [] } : IBMQCompiledCircuit).circuit.ops.take
      (2 * one_node_pattern.input_nodes.length) = input_prep_ops one_node_pattern :=
  c10_input_preparation one_node_pattern false _ rfl

theorem masked_key_getD :
    ∀ (keys : List Nat) (i : Nat), i < keys.length → ∀ (n : Nat) (bits : List Char)
    (hi : i < keys.length),
    (masked_key n keys bits).getD i ' ' = bits.getD (n - 1 - keys.get ⟨i, hi⟩) '0'
  | k :: t, 0, _, n, bits, _ => rfl
  | k :: t, i + 1, hlt, n, bits, hi =>
      masked_key_getD t i (Nat.lt_of_succ_lt_succ hlt) n bits (Nat.lt_of_succ_lt_succ hi)

theorem masked_key_length (n : Nat) (keys : List Nat) (bits : List Char) :
    (masked_key n keys bits).length = keys.length := by
  simp [masked_key]

/-- Claim C1: for raw histograms whose keys are bitstrings of the classical
register size (`n_node`) and whose output register indices are in range,
the decoder produces keys of length `|output_nodes|` whose character `i`
is the raw character at position `size - 1 - register_index[output_nodes[i]]`,
with the counts of colliding masked keys summed; the final conjunct is the
literal case raw `{"01": 10, "10": 5}` decoding to `{"10": 10, "01": 5}`. -/
theorem c1_decoder (result : List (List Char × Nat)) (p : Pattern) (rd : List (Nat × Nat))
    (keys : List Nat) (fmt : List (List Char × Nat)) (s : List Char)
    (kv : List Char × Nat) (i : Nat)
    (hkeys : output_keys_of rd p.output_nodes = some keys)
    (hfmt : format_result result p rd = some fmt)
    (hr : ∀ r ∈ keys, r < p.n_node)
    (hlen : ∀ kv' ∈ result, kv'.1.length = p.n_node)
    (hkv : kv ∈ result) (hi : i < keys.length) :
    countD fmt s = mask_count p.n_node keys result s ∧
    keys.length = p.output_nodes.length ∧
    dict_get rd (p.output_nodes.getD i 0) = some (keys.get ⟨i, hi⟩) ∧
    (masked_key p.n_node keys kv.1).length = p.output_nodes.length ∧
    p.n_node - 1 - keys.get ⟨i, hi⟩ < kv.1.length ∧
    (masked_key p.n_node keys kv.1).getD i ' ' =
      kv.1.getD (p.n_node - 1 - keys.get ⟨i, hi⟩) '0' ∧
    format_result decoder_raw_example decoder_pattern_example decoder_register_example =
      some [(['1', '0'], 10), (['0', '1'], 5)] := by
  obtain ⟨hklen, hkidx⟩ := output_keys_of_spec rd p.output_nodes keys hkeys
  have hfmt' : fmt = result.foldl
      (fun acc kv2 => add_count acc (masked_key p.n_node keys kv2.1) kv2.2) [] := by
    simp only [format_result, hkeys] at hfmt
    injection hfmt with h'
    exact h'.symm
  have hri : keys.get ⟨i, hi⟩ < p.n_node := hr _ (keys.get_mem _ _)
  have hn0 : 0 < p.n_node := Nat.lt_of_le_of_lt (Nat.zero_le _) hri
  refine ⟨?_, hklen, hkidx i hi, ?_, ?_, ?_, ?_⟩
  · rw [hfmt', countD_fold, mask_count_eq_filter_sum]
    simp [countD]
  · rw [masked_key_length, hklen]
  · rw [hlen kv hkv]
    exact Nat.lt_of_le_of_lt (Nat.sub_le _ _) (Nat.sub_lt hn0 Nat.one_pos)
  · exact masked_key_getD keys i hi p.n_node kv.1 hi
  · rfl

/-- Witness for C1 on the literal decoder case. -/
theorem c1_witness :
    countD [(['1', '0'], 10), (['0', '1'], 5)] ['1', '0'] =
      mask_count decoder_pattern_example.n_node [0, 1] decoder_raw_example ['1', '0'] ∧
    ([0, 1] : List Nat).length = decoder_pattern_example.output_nodes.length ∧
    dict_get decoder_register_example (decoder_pattern_example.output_nodes.getD 0 0) =
      some (([0, 1] : List Nat).get ⟨0, by decide⟩) ∧
    (masked_key decoder_pattern_example.n_node [0, 1] (['0', '1'] : List Char)).length =
      decoder_pattern_example.output_nodes.length ∧
    decoder_pattern_example.n_node - 1 - ([0, 1] : List Nat).get ⟨0, by decide⟩ <
      (['0', '1'] : List Char).length ∧
    (masked_key decoder_pattern_example.n_node [0, 1] (['0', '1'] : List Char)).getD 0 ' ' =
      (['0', '1'] : List Char).getD
        (decoder_pattern_example.n_node - 1 - ([0, 1] : List Nat).get ⟨0, by decide⟩) '0' ∧
    format_result decoder_raw_example decoder_pattern_example decoder_register_example =
      some [(['1', '0'], 10), (['0', '1'], 5)] :=
  c1_decoder decoder_raw_example decoder_pattern_example decoder_register_example [0, 1]
    [(['1', '0'], 10), (['0', '1'], 5)] ['1', '0'] (['0', '1'], 10) 0 rfl rfl
    (by decide) (by decide) (by decide) (by decide)
